import Mathlib

/-!
Verification development for a mustache template engine written in Rust.
The renderer (template.rs), the data model (data.rs) and the error type
(error.rs) are embedded as executable Lean definitions, and theorems below
settle the stated properties of path resolution, section and tag
rendering, text indentation, partial inclusion, equality on data, scope
stack discipline and render determinism.

Conventions of the embedding:
- Rust HashMap values are association lists; lookup returns the first
  binding with the given key (a HashMap never holds two).
- The scope stack (a Rust Vec of borrowed data) is a list whose head is
  the top, that is the innermost frame; Vec push is cons and Vec pop
  drops the head.
- A Rust panic is the value none of an Option typed result; the output
  writer is modelled by returning the written String.
- The callback variant Fun models the RefCell interior mutability of the
  source by state passing: invoking a callback consumes and returns a
  callback state of an abstract type sigma.
- The compiler (compiler.rs and parser.rs are outside the rendering code
  under scrutiny) is an abstract parameter of the renderer: any function
  from a partial map, a source string and a delimiter pair to a token
  list.
- Rendering is bounded by explicit fuel, decremented at every recursive
  step; none also results when fuel runs out, which conservatively
  models the unbounded recursion the source permits through callbacks
  and self referential partials.
-/

namespace Mustache

/-- Runtime data (data.rs, enum Data). The Fun variant holds a stateful
closure: a function from the input string and the current callback state
to the produced string and the next callback state. -/
inductive Data (σ : Type) where
  | Str : String → Data σ
  | Bool : Bool → Data σ
  | Vec : List (Data σ) → Data σ
  | Map : List (String × Data σ) → Data σ
  | Fun : (String → σ → String × σ) → Data σ

/-- Compiled tokens (parser.rs, enum Token, as consumed by template.rs).
The Section fields are, in source order: path, inverted flag, children,
open delimiter, open tag text, captured raw source text, close tag text,
close delimiter. PartialTok is the Partial variant of the source: name,
captured indent, tag text. IncompleteSection stands for the internal
parser marker variants that reach the catch all arm of render_token,
which is fatal. -/
inductive Token where
  | Text : String → Token
  | ETag : List String → String → Token
  | UTag : List String → String → Token
  | Section : List String → Bool → List Token → String → String → String → String → String → Token
  | PartialTok : String → String → String → Token
  | IncompleteSection : Token

/-- HashMap lookup (HashMap get) on the association list model. -/
def assocGet {α : Type} : List (String × α) → String → Option α
  | [], _ => none
  | (k, v) :: rest, key => if k = key then some v else assocGet rest key

/-- First loop of RenderContext find: scan the stack from innermost to
outermost for a Map frame containing the key. Outer none is the panic
raised when a non Map frame is reached during the scan; some none means
no frame contains the key; some (some v) is the anchored value. -/
def findFirst {σ : Type} (key : String) : List (Data σ) → Option (Option (Data σ))
  | [] => some none
  | Data.Map m :: rest =>
    match assocGet m key with
    | some v => some (some v)
    | none => findFirst key rest
  | _ :: _ => none

/-- Second loop of RenderContext find: walk the remaining path segments
strictly through nested Maps; a missing segment or a non Map value met
mid walk is not found (none), never a panic. -/
def walk {σ : Type} : Data σ → List String → Option (Data σ)
  | v, [] => some v
  | Data.Map m, part :: rest =>
    match assocGet m part with
    | some v => walk v rest
    | none => none
  | _, _ :: _ => none

/-- RenderContext find (template.rs). Outer none is a panic, some none is
not found, some (some v) is the resolved value. An empty path returns the
value on top of the stack. -/
def find {σ : Type} (path : List String) (stack : List (Data σ)) : Option (Option (Data σ)) :=
  match path with
  | [] => some stack.head?
  | first :: rest =>
    match findFirst first stack with
    | none => none
    | some none => some none
    | some (some v) => some (walk v rest)

/-- One iteration of the render_text loop: split off the characters up to
and including the first newline, or the whole remainder when no newline
is left. -/
def takeLine : List Char → List Char × List Char
  | [] => ([], [])
  | c :: cs =>
    if c = '\n' then ([c], cs)
    else
      let p := takeLine cs
      (c :: p.1, p.2)

theorem takeLine_snd_length_lt (c : Char) (cs : List Char) :
    (takeLine (c :: cs)).2.length < (c :: cs).length := by
  induction cs generalizing c with
  | nil => simp [takeLine]
  | cons d ds ih =>
    by_cases h : c = '\n'
    · simp [takeLine, h]
    · have := ih d
      simp only [takeLine, if_neg h]
      simpa using Nat.lt_succ_of_lt this

/-- The indenting loop of RenderContext render_text: each line is written
prefixed with the indent string, unless its first character is the
newline itself. -/
def renderTextGo (indent : List Char) (v : List Char) : List Char :=
  match v with
  | [] => []
  | c :: cs =>
    let p := takeLine (c :: cs)
    (if p.1.head? = some '\n' then p.1 else indent ++ p.1) ++ renderTextGo indent p.2
termination_by v.length
decreasing_by simpa using takeLine_snd_length_lt c cs

/-- RenderContext render_text: with an empty indent the chunk is written
verbatim, otherwise the indenting loop runs. -/
def render_text (indent value : String) : String :=
  if indent = "" then value else String.mk (renderTextGo indent.data value.data)

/-- The text chunk split into lines, each line keeping its trailing
newline, with a possible final unterminated line. -/
def splitLines (v : List Char) : List (List Char) :=
  match v with
  | [] => []
  | c :: cs =>
    let p := takeLine (c :: cs)
    p.1 :: splitLines p.2
termination_by v.length
decreasing_by simpa using takeLine_snd_length_lt c cs

/-- The escaping table of RenderContext render_etag. -/
def escapeChar (c : Char) : String :=
  if c = '<' then "&lt;"
  else if c = '>' then "&gt;"
  else if c = '&' then "&amp;"
  else if c = '"' then "&quot;"
  else if c = Char.ofNat 39 then "&#39;"
  else String.singleton c

/-- HTML escaping applied by render_etag to the buffered unescaped
output, character by character. -/
def escape (s : String) : String := String.join (s.data.map escapeChar)

/-- A compiled template (template.rs, struct Template): the token list
and the partial map. The compilation context field only feeds the
abstracted compiler and carries no render time behaviour of its own. -/
structure Templ where
  tokens : List Token
  partials : List (String × List Token)

/-- The renderer environment: the template being rendered plus the
abstracted compiler, a function from a partial map, a source string, an
open delimiter and a close delimiter to a token list. -/
structure REnv (σ : Type) where
  template : Templ
  compile : List (String × List Token) → String → String → String → List Token

/-- The result of a render call: the written output, the final indent,
the final scope stack and the final callback state. -/
structure ROut (σ : Type) where
  out : String
  indent : String
  stack : List (Data σ)
  fs : σ

/-- RenderContext render_fun: invoke the callback on the source text and
compile its result under the given delimiters, inheriting the partial
map of the template. -/
def render_fun {σ : Type} (env : REnv σ) (src otag ctag : String)
    (f : String → σ → String × σ) (fs : σ) : List Token × σ :=
  let p := f src fs
  (env.compile env.template.partials p.1 otag ctag, p.2)

mutual

/-- RenderContext render: render each token in order, threading the
mutable renderer state through. -/
def render {σ : Type} (env : REnv σ) (fuel : Nat) (indent : String)
    (stack : List (Data σ)) (fs : σ) (tokens : List Token) : Option (ROut σ) :=
  match fuel with
  | 0 => none
  | fuel + 1 =>
    match tokens with
    | [] => some ⟨"", indent, stack, fs⟩
    | tok :: rest =>
      match renderToken env fuel indent stack fs tok with
      | none => none
      | some r =>
        match render env fuel r.indent r.stack r.fs rest with
        | none => none
        | some r2 => some ⟨r.out ++ r2.out, r2.indent, r2.stack, r2.fs⟩

/-- RenderContext render_token: dispatch on the token kind. The catch
all arm of the source is a panic. -/
def renderToken {σ : Type} (env : REnv σ) (fuel : Nat) (indent : String)
    (stack : List (Data σ)) (fs : σ) (tok : Token) : Option (ROut σ) :=
  match fuel with
  | 0 => none
  | fuel + 1 =>
    match tok with
    | .Text value => some ⟨render_text indent value, indent, stack, fs⟩
    | .ETag path _ => renderEtag env fuel indent stack fs path
    | .UTag path _ => renderUtag env fuel indent stack fs path
    | .Section path true children _ _ _ _ _ =>
      renderInvertedSection env fuel indent stack fs path children
    | .Section path false children otag _ src _ ctag =>
      renderSection env fuel indent stack fs path children src otag ctag
    | .PartialTok name pindent _ => renderPartialTok env fuel indent stack fs name pindent
    | .IncompleteSection => none

/-- RenderContext render_etag: render the unescaped tag into a fresh
buffer, then write the escaped buffer. -/
def renderEtag {σ : Type} (env : REnv σ) (fuel : Nat) (indent : String)
    (stack : List (Data σ)) (fs : σ) (path : List String) : Option (ROut σ) :=
  match fuel with
  | 0 => none
  | fuel + 1 =>
    match renderUtag env fuel indent stack fs path with
    | none => none
    | some r => some ⟨escape r.out, r.indent, r.stack, r.fs⟩

/-- RenderContext render_utag: resolve the path; write nothing when not
found; otherwise write the indent, then a Str value literally, or expand
a Fun under the default double brace delimiters; any other value is a
panic. -/
def renderUtag {σ : Type} (env : REnv σ) (fuel : Nat) (indent : String)
    (stack : List (Data σ)) (fs : σ) (path : List String) : Option (ROut σ) :=
  match fuel with
  | 0 => none
  | fuel + 1 =>
    match find path stack with
    | none => none
    | some none => some ⟨"", indent, stack, fs⟩
    | some (some v) =>
      match v with
      | .Str value => some ⟨indent ++ value, indent, stack, fs⟩
      | .Fun f =>
        match render env fuel indent stack
            (render_fun env "" "\x7b\x7b" "\x7d\x7d" f fs).2
            (render_fun env "" "\x7b\x7b" "\x7d\x7d" f fs).1 with
        | none => none
        | some r => some ⟨indent ++ r.out, r.indent, r.stack, r.fs⟩
      | _ => none

/-- RenderContext render_inverted_section: render the children exactly
when the path is not found, resolves to Bool false, or resolves to an
empty Vec; any other resolved value suppresses them; a panic inside find
propagates. -/
def renderInvertedSection {σ : Type} (env : REnv σ) (fuel : Nat) (indent : String)
    (stack : List (Data σ)) (fs : σ) (path : List String) (children : List Token) :
    Option (ROut σ) :=
  match fuel with
  | 0 => none
  | fuel + 1 =>
    match find path stack with
    | none => none
    | some none => render env fuel indent stack fs children
    | some (some (.Bool false)) => render env fuel indent stack fs children
    | some (some (.Vec [])) => render env fuel indent stack fs children
    | some (some _) => some ⟨"", indent, stack, fs⟩

/-- RenderContext render_section: dispatch on the resolved value; Bool
true renders the children once, Bool false and not found render nothing,
a Vec iterates the children per element, a Map pushes itself around one
rendering of the children, a Fun is expanded through the compiler under
the recorded delimiters, and any other value (a Str) is a panic. -/
def renderSection {σ : Type} (env : REnv σ) (fuel : Nat) (indent : String)
    (stack : List (Data σ)) (fs : σ) (path : List String) (children : List Token)
    (src otag ctag : String) : Option (ROut σ) :=
  match fuel with
  | 0 => none
  | fuel + 1 =>
    match find path stack with
    | none => none
    | some none => some ⟨"", indent, stack, fs⟩
    | some (some v) =>
      match v with
      | .Bool true => render env fuel indent stack fs children
      | .Bool false => some ⟨"", indent, stack, fs⟩
      | .Vec vs => renderSectionVec env fuel indent stack fs vs children
      | .Map m =>
        match render env fuel indent (Data.Map m :: stack) fs children with
        | none => none
        | some r => some ⟨r.out, r.indent, r.stack.tail, r.fs⟩
      | .Fun f =>
        let p := render_fun env src otag ctag f fs
        render env fuel indent stack p.2 p.1
      | .Str _ => none

/-- The Vec loop of render_section: for each element in order, push it,
render the children, pop it, concatenating the written output. -/
def renderSectionVec {σ : Type} (env : REnv σ) (fuel : Nat) (indent : String)
    (stack : List (Data σ)) (fs : σ) (vs : List (Data σ)) (children : List Token) :
    Option (ROut σ) :=
  match fuel with
  | 0 => none
  | fuel + 1 =>
    match vs with
    | [] => some ⟨"", indent, stack, fs⟩
    | v :: rest =>
      match render env fuel indent (v :: stack) fs children with
      | none => none
      | some r =>
        match renderSectionVec env fuel r.indent r.stack.tail r.fs rest children with
        | none => none
        | some r2 => some ⟨r.out ++ r2.out, r2.indent, r2.stack, r2.fs⟩

/-- RenderContext render_partial: a name absent from the partial map is
a silent no op; otherwise the partial tokens are rendered under the
concatenated indent, which is swapped back afterwards. -/
def renderPartialTok {σ : Type} (env : REnv σ) (fuel : Nat) (indent : String)
    (stack : List (Data σ)) (fs : σ) (name pindent : String) : Option (ROut σ) :=
  match fuel with
  | 0 => none
  | fuel + 1 =>
    match assocGet env.template.partials name with
    | none => some ⟨"", indent, stack, fs⟩
    | some toks =>
      match render env fuel (indent ++ pindent) stack fs toks with
      | none => none
      | some r => some ⟨r.out, indent, r.stack, r.fs⟩

end

/-- Template render_data: a fresh render context with an empty indent
and a fresh stack holding just the data. -/
def render_data {σ : Type} (env : REnv σ) (fuel : Nat) (data : Data σ) (fs : σ) :
    Option (ROut σ) :=
  render env fuel "" [data] fs env.template.tokens

/-- The public error type (error.rs, enum Error). The io Error payload
of the IoError variant is opaque to this crate and is embedded as a
number. -/
inductive Error where
  | UnsupportedType : Error
  | InvalidStr : Error
  | MissingElements : Error
  | KeyIsNotString : Error
  | IoError : Nat → Error

/-- The kind of an error value, forgetting the IoError payload. -/
inductive ErrorKind where
  | unsupportedType : ErrorKind
  | invalidStr : ErrorKind
  | missingElements : ErrorKind
  | keyIsNotString : ErrorKind
  | ioError : ErrorKind
deriving DecidableEq

/-- Map each error value to its kind. -/
def Error.kind : Error → ErrorKind
  | .UnsupportedType => .unsupportedType
  | .InvalidStr => .invalidStr
  | .MissingElements => .missingElements
  | .KeyIsNotString => .keyIsNotString
  | .IoError _ => .ioError

/-- The source level name of each error kind. -/
def ErrorKind.name : ErrorKind → String
  | .unsupportedType => "UnsupportedType"
  | .invalidStr => "InvalidStr"
  | .missingElements => "MissingElements"
  | .keyIsNotString => "KeyIsNotString"
  | .ioError => "IoError"

/-- Every kind the embedded error type has. -/
def allErrorKinds : List ErrorKind :=
  [.unsupportedType, .invalidStr, .missingElements, .keyIsNotString, .ioError]

/-- The names of all kinds of the embedded error type. -/
def allErrorKindNames : List String := allErrorKinds.map ErrorKind.name

theorem allErrorKinds_complete : ∀ k : ErrorKind, k ∈ allErrorKinds := by
  intro k
  cases k <;> simp [allErrorKinds]

mutual

/-- PartialEq for Data (data.rs). The verdict some b is the returned
bool; none is the panic raised when two Fun values are compared. The
catch all arm of the source returns false for any two values of
distinct variants, a Fun against a non Fun included. Slice and map
equality compare lengths first, then entries, as the Rust impls do. -/
def dataEq {σ : Type} : Data σ → Data σ → Option Bool
  | .Str a, .Str b => some (a == b)
  | .Bool a, .Bool b => some (a == b)
  | .Vec a, .Vec b => if a.length = b.length then dataEqList a b else some false
  | .Map a, .Map b => if a.length = b.length then dataEqMap a b else some false
  | .Fun _, .Fun _ => none
  | _, _ => some false

/-- Element wise slice equality with early exit, propagating the panic. -/
def dataEqList {σ : Type} : List (Data σ) → List (Data σ) → Option Bool
  | [], [] => some true
  | a :: as, b :: bs =>
    match dataEq a b with
    | none => none
    | some false => some false
    | some true => dataEqList as bs
  | _, _ => some false

/-- HashMap equality: every binding of the left map must be present with
an equal value in the right map, propagating the panic. -/
def dataEqMap {σ : Type} : List (String × Data σ) → List (String × Data σ) → Option Bool
  | [], _ => some true
  | (k, v) :: rest, b =>
    match assocGet b k with
    | none => some false
    | some w =>
      match dataEq v w with
      | none => none
      | some false => some false
      | some true => dataEqMap rest b

end

mutual

/-- True when the data graph contains no Fun value. -/
def noFun {σ : Type} : Data σ → Bool
  | .Str _ => true
  | .Bool _ => true
  | .Vec xs => noFunList xs
  | .Map m => noFunMap m
  | .Fun _ => false

def noFunList {σ : Type} : List (Data σ) → Bool
  | [] => true
  | x :: xs => noFun x && noFunList xs

def noFunMap {σ : Type} : List (String × Data σ) → Bool
  | [] => true
  | (_, v) :: rest => noFun v && noFunMap rest

end

/-- True when an association list binds no key twice, as a HashMap never
does. -/
def keysUnique {α : Type} : List (String × α) → Bool
  | [] => true
  | (k, _) :: rest => (assocGet rest k).isNone && keysUnique rest

mutual

/-- True when every map inside the data graph binds no key twice: the
invariant every HashMap holds by construction. -/
def wfKeys {σ : Type} : Data σ → Bool
  | .Str _ => true
  | .Bool _ => true
  | .Fun _ => true
  | .Vec xs => wfKeysList xs
  | .Map m => keysUnique m && wfKeysMap m

def wfKeysList {σ : Type} : List (Data σ) → Bool
  | [] => true
  | x :: xs => wfKeys x && wfKeysList xs

def wfKeysMap {σ : Type} : List (String × Data σ) → Bool
  | [] => true
  | (_, v) :: rest => wfKeys v && wfKeysMap rest

end

/-- The falsy test of render_inverted_section, on a find result: not
found, Bool false, or an empty Vec. -/
def invFalsy {σ : Type} : Option (Option (Data σ)) → Bool
  | some none => true
  | some (some (.Bool false)) => true
  | some (some (.Vec [])) => true
  | _ => false

/-- Whether render_section renders its children for a resolved value:
some true for Bool true, a non empty Vec and a Map; some false for Bool
false and an empty Vec; none for the variants on which the section does
not render children at all (a Fun defers to the callback output and a
Str is fatal). -/
def sectionRenders {σ : Type} : Data σ → Option Bool
  | .Bool b => some b
  | .Vec vs => some (!vs.isEmpty)
  | .Map _ => some true
  | .Str _ => none
  | .Fun _ => none

/-- The constructor tag of a data value. -/
def Data.tag {σ : Type} : Data σ → Nat
  | .Str _ => 0
  | .Bool _ => 1
  | .Vec _ => 2
  | .Map _ => 3
  | .Fun _ => 4

/-! ### Path resolution -/

theorem findFirst_append_of_maps_without {σ : Type} (k : String)
    (pre post : List (Data σ))
    (h : ∀ d ∈ pre, ∃ mm, d = Data.Map mm ∧ assocGet mm k = none) :
    findFirst k (pre ++ post) = findFirst k post := by
  induction pre with
  | nil => rfl
  | cons d rest ih =>
    obtain ⟨mm, rfl, hget⟩ := h d (by simp)
    have ih2 := ih (fun x hx => h x (by simp [hx]))
    simp [findFirst, hget, ih2]

theorem findFirst_nonmap {σ : Type} (k : String) (d : Data σ) (post : List (Data σ))
    (h : ∀ mm, d ≠ Data.Map mm) : findFirst k (d :: post) = none := by
  cases d with
  | Map mm => exact absurd rfl (h mm)
  | Str s => rfl
  | Bool b => rfl
  | Vec vs => rfl
  | Fun f => rfl

/-- Claim C1: path resolution. An empty path returns the value on top of
the stack, none only for an empty stack. For a non empty path, the
innermost Map frame containing the first segment anchors resolution and
the frames below it are ignored entirely; the remaining segments are
walked strictly through nested Maps, where a missing segment or a non Map
value yields not found; when no scanned frame contains the first segment
the result is not found provided all frames are Maps, and a non Map frame
met while still scanning is a panic. -/
theorem claim_C1 {σ : Type} :
    (∀ stack : List (Data σ), find [] stack = some stack.head?) ∧
    (∀ (k : String) (rest : List String) (pre post : List (Data σ))
       (m : List (String × Data σ)) (v : Data σ),
       (∀ d ∈ pre, ∃ mm, d = Data.Map mm ∧ assocGet mm k = none) →
       assocGet m k = some v →
       find (k :: rest) (pre ++ Data.Map m :: post) = some (walk v rest)) ∧
    (∀ (k : String) (rest : List String) (pre post : List (Data σ)) (d : Data σ),
       (∀ x ∈ pre, ∃ mm, x = Data.Map mm ∧ assocGet mm k = none) →
       (∀ mm, d ≠ Data.Map mm) →
       find (k :: rest) (pre ++ d :: post) = none) ∧
    (∀ (k : String) (rest : List String) (stack : List (Data σ)),
       (∀ x ∈ stack, ∃ mm, x = Data.Map mm ∧ assocGet mm k = none) →
       find (k :: rest) stack = some none) ∧
    (∀ (v : Data σ) (p : String) (rest : List String),
       (∀ mm, v ≠ Data.Map mm) → walk v (p :: rest) = none) ∧
    (∀ (m : List (String × Data σ)) (p : String) (rest : List String),
       assocGet m p = none → walk (Data.Map m) (p :: rest) = none) := by
  refine ⟨fun stack => rfl, ?_, ?_, ?_, ?_, ?_⟩
  · intro k rest pre post m v hpre hm
    have h1 := findFirst_append_of_maps_without k pre (Data.Map m :: post) hpre
    simp only [find, h1, findFirst, hm]
  · intro k rest pre post d hpre hd
    have h1 := findFirst_append_of_maps_without k pre (d :: post) hpre
    have h2 := findFirst_nonmap k d post hd
    simp only [find, h1, h2]
  · intro k rest stack hstack
    have h1 := findFirst_append_of_maps_without k stack ([] : List (Data σ)) hstack
    simp only [List.append_nil] at h1
    simp only [find, h1, findFirst]
  · intro v p rest hv
    cases v with
    | Map mm => exact absurd rfl (hv mm)
    | Str s => rfl
    | Bool b => rfl
    | Vec vs => rfl
    | Fun f => rfl
  · intro m p rest hm
    simp [walk, hm]

/-- Witness for C1: a concrete resolution through the second conjunct,
where an inner frame lacking the key is skipped, the anchoring frame has
it, and an outer non Map frame is never reached. -/
theorem claim_C1_witness :
    find ["a", "b"]
      ([Data.Map [("x", Data.Bool true)],
        Data.Map [("a", Data.Map [("b", Data.Str "v")])],
        Data.Str "junk"] : List (Data Unit)) = some (some (Data.Str "v")) := by
  have h := (claim_C1 (σ := Unit)).2.1 "a" ["b"]
    [Data.Map [("x", Data.Bool true)]] [Data.Str "junk"]
    [("a", Data.Map [("b", Data.Str "v")])] (Data.Map [("b", Data.Str "v")])
    (by
      intro d hd
      simp only [List.mem_singleton] at hd
      exact ⟨[("x", Data.Bool true)], hd, rfl⟩)
    rfl
  simpa using h

/-! ### Text rendering with indentation -/

theorem takeLine_append (v : List Char) : (takeLine v).1 ++ (takeLine v).2 = v := by
  induction v with
  | nil => rfl
  | cons c cs ih =>
    by_cases h : c = '\n'
    · simp [takeLine, h]
    · simp [takeLine, h, ih]

theorem takeLine_fst_ne_nil (c : Char) (cs : List Char) : (takeLine (c :: cs)).1 ≠ [] := by
  by_cases h : c = '\n' <;> simp [takeLine, h]

theorem takeLine_spec (v : List Char) :
    ((takeLine v).2 = [] ∧ ∀ ch ∈ (takeLine v).1, ch ≠ '\n') ∨
    (∃ l, (takeLine v).1 = l ++ ['\n'] ∧ ∀ ch ∈ l, ch ≠ '\n') := by
  induction v with
  | nil => left; simp [takeLine]
  | cons c cs ih =>
    by_cases h : c = '\n'
    · right
      exact ⟨[], by simp [takeLine, h], by simp⟩
    · rcases ih with ⟨h2, hall⟩ | ⟨l, hl, hall⟩
      · left
        refine ⟨by simp [takeLine, h, h2], ?_⟩
        intro ch hch
        simp only [takeLine, if_neg h, List.mem_cons] at hch
        rcases hch with rfl | hch
        · exact h
        · exact hall ch hch
      · right
        refine ⟨c :: l, by simp [takeLine, h, hl], ?_⟩
        intro ch hch
        rcases List.mem_cons.mp hch with rfl | hch
        · exact h
        · exact hall ch hch

theorem takeLine_fst_dropLast (v : List Char) :
    ∀ ch ∈ (takeLine v).1.dropLast, ch ≠ '\n' := by
  rcases takeLine_spec v with ⟨_, hall⟩ | ⟨l, hl, hall⟩
  · intro ch hch
    exact hall ch ((List.dropLast_prefix _).subset hch)
  · intro ch hch
    rw [hl, List.dropLast_concat] at hch
    exact hall ch hch

theorem takeLine_fst_getLast (c : Char) (cs : List Char)
    (h2 : (takeLine (c :: cs)).2 ≠ []) : (takeLine (c :: cs)).1.getLast? = some '\n' := by
  rcases takeLine_spec (c :: cs) with ⟨h3, _⟩ | ⟨l, hl, _⟩
  · exact absurd h3 h2
  · rw [hl]
    simp

theorem splitLines_flatten (v : List Char) : (splitLines v).flatten = v := by
  match v with
  | [] => simp [splitLines]
  | c :: cs =>
    rw [splitLines]
    have h := splitLines_flatten (takeLine (c :: cs)).2
    simp only [List.flatten_cons, h, takeLine_append]
termination_by v.length
decreasing_by simpa using takeLine_snd_length_lt c cs

theorem splitLines_lines (v : List Char) :
    ∀ l ∈ splitLines v, l ≠ [] ∧ ∀ ch ∈ l.dropLast, ch ≠ '\n' := by
  match v with
  | [] => simp [splitLines]
  | c :: cs =>
    rw [splitLines]
    intro l hl
    rcases List.mem_cons.mp hl with h1 | h1
    · subst h1
      exact ⟨takeLine_fst_ne_nil c cs, takeLine_fst_dropLast (c :: cs)⟩
    · exact splitLines_lines (takeLine (c :: cs)).2 l h1
termination_by v.length
decreasing_by simpa using takeLine_snd_length_lt c cs

theorem splitLines_ne_nil_of_ne_nil (v : List Char) (h : v ≠ []) : splitLines v ≠ [] := by
  match v with
  | [] => exact absurd rfl h
  | c :: cs => rw [splitLines]; simp

theorem splitLines_terminated (v : List Char) :
    ∀ l ∈ (splitLines v).dropLast, l.getLast? = some '\n' := by
  match v with
  | [] => simp [splitLines]
  | c :: cs =>
    rw [splitLines]
    by_cases hrest : (takeLine (c :: cs)).2 = []
    · rw [hrest]
      simp [splitLines]
    · have hne := splitLines_ne_nil_of_ne_nil _ hrest
      intro l hl
      rw [List.dropLast_cons_of_ne_nil hne] at hl
      rcases List.mem_cons.mp hl with h1 | h1
      · subst h1
        exact takeLine_fst_getLast c cs hrest
      · exact splitLines_terminated (takeLine (c :: cs)).2 l h1
termination_by v.length
decreasing_by all_goals simpa using takeLine_snd_length_lt c cs

theorem renderTextGo_eq_splitLines (indent v : List Char) :
    renderTextGo indent v =
      ((splitLines v).map
        (fun l => if l.head? = some '\n' then l else indent ++ l)).flatten := by
  match v with
  | [] => simp [renderTextGo, splitLines]
  | c :: cs =>
    rw [renderTextGo, splitLines]
    have h := renderTextGo_eq_splitLines indent (takeLine (c :: cs)).2
    simp only [List.map_cons, List.flatten_cons, h]
termination_by v.length
decreasing_by all_goals simpa using takeLine_snd_length_lt c cs

/-- Claim C8: text rendering with indentation. An empty indent writes the
chunk verbatim. A non empty indent writes, for each line of the chunk,
the indent followed by the line, except for a line whose first character
is the newline itself, written bare. The line split keeps the trailing
newline on each line, every line except possibly the final one ends with
the newline, no line is empty, and no line holds a newline anywhere but
at its end; the lines concatenate back to the chunk. -/
theorem claim_C8 (indent value : String) :
    (indent = "" → render_text indent value = value) ∧
    (indent ≠ "" → render_text indent value =
      String.mk (((splitLines value.data).map
        (fun l => if l.head? = some '\n' then l else indent.data ++ l)).flatten)) ∧
    ((splitLines value.data).flatten = value.data) ∧
    (∀ l ∈ splitLines value.data, l ≠ [] ∧ ∀ ch ∈ l.dropLast, ch ≠ '\n') ∧
    (∀ l ∈ (splitLines value.data).dropLast, l.getLast? = some '\n') := by
  refine ⟨?_, ?_, splitLines_flatten value.data, splitLines_lines value.data,
    splitLines_terminated value.data⟩
  · intro h
    simp [render_text, h]
  · intro h
    simp [render_text, h, renderTextGo_eq_splitLines]

/-- Witness for C8: the two hypothetical conjuncts applied at concrete
indents. -/
theorem claim_C8_witness :
    render_text "" "a\nb" = "a\nb" ∧
    render_text "ab" "x\ny" =
      String.mk (((splitLines "x\ny".data).map
        (fun l => if l.head? = some '\n' then l else "ab".data ++ l)).flatten) :=
  ⟨(claim_C8 "" "a\nb").1 rfl, (claim_C8 "ab" "x\ny").2.1 (by decide)⟩

/-! ### Scope stack and indent discipline -/

/-- Every rendering operation leaves the scope stack and the indent it
was entered with: pushes are matched by pops and indent swaps are undone.
Proved for all the mutually recursive rendering functions at once, by
induction on fuel. -/
theorem renderPreserves {σ : Type} (env : REnv σ) : ∀ fuel : Nat,
    (∀ indent stack fs toks r, render env fuel indent stack fs toks = some r →
      r.stack = stack ∧ r.indent = indent) ∧
    (∀ indent stack fs tok r, renderToken env fuel indent stack fs tok = some r →
      r.stack = stack ∧ r.indent = indent) ∧
    (∀ indent stack fs path r, renderEtag env fuel indent stack fs path = some r →
      r.stack = stack ∧ r.indent = indent) ∧
    (∀ indent stack fs path r, renderUtag env fuel indent stack fs path = some r →
      r.stack = stack ∧ r.indent = indent) ∧
    (∀ indent stack fs path children r,
      renderInvertedSection env fuel indent stack fs path children = some r →
      r.stack = stack ∧ r.indent = indent) ∧
    (∀ indent stack fs path children src otag ctag r,
      renderSection env fuel indent stack fs path children src otag ctag = some r →
      r.stack = stack ∧ r.indent = indent) ∧
    (∀ indent stack fs vs children r,
      renderSectionVec env fuel indent stack fs vs children = some r →
      r.stack = stack ∧ r.indent = indent) ∧
    (∀ indent stack fs name pindent r,
      renderPartialTok env fuel indent stack fs name pindent = some r →
      r.stack = stack ∧ r.indent = indent) := by
  intro fuel
  induction fuel with
  | zero =>
    refine ⟨?_, ?_, ?_, ?_, ?_, ?_, ?_, ?_⟩
    · intro indent stack fs toks r h; simp [render] at h
    · intro indent stack fs tok r h; simp [renderToken] at h
    · intro indent stack fs path r h; simp [renderEtag] at h
    · intro indent stack fs path r h; simp [renderUtag] at h
    · intro indent stack fs path children r h; simp [renderInvertedSection] at h
    · intro indent stack fs path children src otag ctag r h; simp [renderSection] at h
    · intro indent stack fs vs children r h; simp [renderSectionVec] at h
    · intro indent stack fs name pindent r h; simp [renderPartialTok] at h
  | succ fuel ih =>
    obtain ⟨ihR, ihT, ihE, ihU, ihI, ihS, ihV, ihP⟩ := ih
    refine ⟨?_, ?_, ?_, ?_, ?_, ?_, ?_, ?_⟩
    · -- render
      intro indent stack fs toks r h
      cases toks with
      | nil =>
        rw [render] at h
        cases h
        exact ⟨rfl, rfl⟩
      | cons tok rest =>
        rw [render] at h
        split at h
        next => cases h
        next r1 heq1 =>
          split at h
          next => cases h
          next r2 heq2 =>
            cases h
            obtain ⟨hs1, hi1⟩ := ihT _ _ _ _ _ heq1
            obtain ⟨hs2, hi2⟩ := ihR _ _ _ _ _ heq2
            exact ⟨by simp [hs2, hs1], by simp [hi2, hi1]⟩
    · -- renderToken
      intro indent stack fs tok r h
      cases tok with
      | Text value =>
        rw [renderToken] at h
        cases h
        exact ⟨rfl, rfl⟩
      | ETag path tag => exact ihE _ _ _ _ _ h
      | UTag path tag => exact ihU _ _ _ _ _ h
      | Section path inverted children otag osec src csec ctag =>
        cases inverted with
        | true => exact ihI _ _ _ _ _ _ h
        | false => exact ihS _ _ _ _ _ _ _ _ _ h
      | PartialTok name pindent tag => exact ihP _ _ _ _ _ _ h
      | IncompleteSection => rw [renderToken] at h; cases h
    · -- renderEtag
      intro indent stack fs path r h
      rw [renderEtag] at h
      split at h
      next => cases h
      next r1 heq1 =>
        cases h
        obtain ⟨hs1, hi1⟩ := ihU _ _ _ _ _ heq1
        exact ⟨hs1, hi1⟩
    · -- renderUtag
      intro indent stack fs path r h
      rw [renderUtag] at h
      split at h
      next => cases h
      next => cases h; exact ⟨rfl, rfl⟩
      next v heqf =>
        split at h
        next value => cases h; exact ⟨rfl, rfl⟩
        next f =>
          split at h
          next => cases h
          next r1 heq1 =>
            cases h
            obtain ⟨hs1, hi1⟩ := ihR _ _ _ _ _ heq1
            exact ⟨hs1, hi1⟩
        next hne1 hne2 => cases h
    · -- renderInvertedSection
      intro indent stack fs path children r h
      rw [renderInvertedSection] at h
      split at h
      next => cases h
      next => exact ihR _ _ _ _ _ h
      next => exact ihR _ _ _ _ _ h
      next => exact ihR _ _ _ _ _ h
      next => cases h; exact ⟨rfl, rfl⟩
    · -- renderSection
      intro indent stack fs path children src otag ctag r h
      rw [renderSection] at h
      split at h
      next => cases h
      next => cases h; exact ⟨rfl, rfl⟩
      next v heqf =>
        split at h
        next => exact ihR _ _ _ _ _ h
        next => cases h; exact ⟨rfl, rfl⟩
        next vs =>
          exact ihV _ _ _ _ _ _ h
        next m =>
          split at h
          next => cases h
          next r1 heq1 =>
            cases h
            obtain ⟨hs1, hi1⟩ := ihR _ _ _ _ _ heq1
            exact ⟨by simp [hs1], hi1⟩
        next f => exact ihR _ _ _ _ _ h
        next s => cases h
    · -- renderSectionVec
      intro indent stack fs vs children r
      cases vs with
      | nil =>
        intro h
        have hunf : renderSectionVec env (fuel+1) indent stack fs [] children =
            some ⟨"", indent, stack, fs⟩ := rfl
        rw [hunf] at h
        cases h
        exact ⟨rfl, rfl⟩
      | cons v rest =>
        intro h
        have hunf : renderSectionVec env (fuel+1) indent stack fs (v :: rest) children =
            match render env fuel indent (v :: stack) fs children with
            | none => none
            | some r =>
              match renderSectionVec env fuel r.indent r.stack.tail r.fs rest children with
              | none => none
              | some r2 => some ⟨r.out ++ r2.out, r2.indent, r2.stack, r2.fs⟩ := rfl
        rw [hunf] at h
        split at h
        next => cases h
        next r1 heq1 =>
          split at h
          next => cases h
          next r2 heq2 =>
            cases h
            obtain ⟨hs1, hi1⟩ := ihR _ _ _ _ _ heq1
            obtain ⟨hs2, hi2⟩ := ihV _ _ _ _ _ _ heq2
            exact ⟨by simp [hs2, hs1], by simp [hi2, hi1]⟩
    · -- renderPartialTok
      intro indent stack fs name pindent r h
      rw [renderPartialTok] at h
      split at h
      next => cases h; exact ⟨rfl, rfl⟩
      next toks heqp =>
        split at h
        next => cases h
        next r1 heq1 =>
          cases h
          obtain ⟨hs1, _⟩ := ihR _ _ _ _ _ heq1
          exact ⟨hs1, rfl⟩
/-- A tiny concrete environment used by witnesses: one text token, one
partial named p, and a compiler returning no tokens. -/
def wEnv : REnv Unit :=
  ⟨⟨[Token.Text "hi"], [("p", [Token.Text "inc"])]⟩, fun _ _ _ _ => []⟩

/-- Claim C10: scope stack balance. Every rendering call that returns
without a fatal error leaves the scope stack exactly as it found it, the
same frames in the same order. -/
theorem claim_C10 {σ : Type} (env : REnv σ) (fuel : Nat) (indent : String)
    (stack : List (Data σ)) (fs : σ) (tokens : List Token) (r : ROut σ)
    (h : render env fuel indent stack fs tokens = some r) : r.stack = stack :=
  ((renderPreserves env fuel).1 indent stack fs tokens r h).1

/-- Witness for C10 at a concrete render. -/
theorem claim_C10_witness :
    render wEnv 2 "" [Data.Str "s"] () [Token.Text "hi"] =
      some ⟨"hi", "", [Data.Str "s"], ()⟩ ∧
    (⟨"hi", "", [Data.Str "s"], ()⟩ : ROut Unit).stack = [Data.Str "s"] :=
  ⟨rfl, claim_C10 wEnv 2 "" [Data.Str "s"] () [Token.Text "hi"]
    ⟨"hi", "", [Data.Str "s"], ()⟩ rfl⟩

/-- Claim C7: partial rendering. A name absent from the partial map of
the compiled template writes nothing and leaves the renderer state
unchanged; a present one renders its tokens under the concatenation of
the current prefix and the captured indent of the token, and afterwards
the prefix is restored exactly to its prior value. -/
theorem claim_C7 {σ : Type} (env : REnv σ) (fuel : Nat) (indent : String)
    (stack : List (Data σ)) (fs : σ) (name pindent : String) :
    (assocGet env.template.partials name = none →
      renderPartialTok env (fuel + 1) indent stack fs name pindent =
        some ⟨"", indent, stack, fs⟩) ∧
    (∀ toks, assocGet env.template.partials name = some toks →
      renderPartialTok env (fuel + 1) indent stack fs name pindent =
        (render env fuel (indent ++ pindent) stack fs toks).map
          (fun r => ⟨r.out, indent, r.stack, r.fs⟩)) ∧
    (∀ r, renderPartialTok env fuel indent stack fs name pindent = some r →
      r.indent = indent) := by
  refine ⟨?_, ?_, ?_⟩
  · intro hp
    rw [renderPartialTok, hp]
  · intro toks hp
    rw [renderPartialTok, hp]
    cases hr : render env fuel (indent ++ pindent) stack fs toks <;> simp [hr]
  · intro r h
    exact ((renderPreserves env fuel).2.2.2.2.2.2.2 indent stack fs name pindent r h).2

/-- Witness for C7: the present and absent cases at a concrete partial
map. -/
theorem claim_C7_witness :
    renderPartialTok wEnv 2 "ab" [Data.Str "s"] () "p" "cd" =
      (render wEnv 1 ("ab" ++ "cd") [Data.Str "s"] () [Token.Text "inc"]).map
        (fun r => ⟨r.out, "ab", r.stack, r.fs⟩) ∧
    renderPartialTok wEnv 2 "ab" [Data.Str "s"] () "q" "cd" =
      some ⟨"", "ab", [Data.Str "s"], ()⟩ :=
  ⟨(claim_C7 wEnv 1 "ab" [Data.Str "s"] () "p" "cd").2.1 [Token.Text "inc"] rfl,
   (claim_C7 wEnv 1 "ab" [Data.Str "s"] () "q" "cd").1 rfl⟩

/-! ### Section rendering -/

/-- Claim C2: section rendering dispatches on the resolved value: not
found and Bool false write nothing; Bool true renders the children once
against the unchanged stack; a Vec renders the children once per element
in order, pushing the element before and popping it after each
iteration; a Map pushes itself around one rendering of the children; a
Fun is invoked on the captured raw source text, its output is compiled
under the delimiters recorded on the token with the partial map of the
template inherited, and the result is rendered inline; any other variant
(a Str) is fatal. -/
theorem claim_C2 {σ : Type} (env : REnv σ) (fuel : Nat) (indent : String)
    (stack : List (Data σ)) (fs : σ) (path : List String) (children : List Token)
    (src otag ctag : String) :
    (find path stack = some none →
      renderSection env (fuel + 1) indent stack fs path children src otag ctag =
        some ⟨"", indent, stack, fs⟩) ∧
    (find path stack = some (some (Data.Bool false)) →
      renderSection env (fuel + 1) indent stack fs path children src otag ctag =
        some ⟨"", indent, stack, fs⟩) ∧
    (find path stack = some (some (Data.Bool true)) →
      renderSection env (fuel + 1) indent stack fs path children src otag ctag =
        render env fuel indent stack fs children) ∧
    (∀ vs, find path stack = some (some (Data.Vec vs)) →
      renderSection env (fuel + 1) indent stack fs path children src otag ctag =
        renderSectionVec env fuel indent stack fs vs children) ∧
    (renderSectionVec env (fuel + 1) indent stack fs [] children =
      some ⟨"", indent, stack, fs⟩) ∧
    (∀ v vs, renderSectionVec env (fuel + 1) indent stack fs (v :: vs) children =
      (render env fuel indent (v :: stack) fs children).bind (fun r =>
        (renderSectionVec env fuel r.indent r.stack.tail r.fs vs children).map
          (fun r2 => ⟨r.out ++ r2.out, r2.indent, r2.stack, r2.fs⟩))) ∧
    (∀ v r, render env fuel indent (v :: stack) fs children = some r →
      r.stack.tail = stack) ∧
    (∀ m, find path stack = some (some (Data.Map m)) →
      renderSection env (fuel + 1) indent stack fs path children src otag ctag =
        (render env fuel indent (Data.Map m :: stack) fs children).map
          (fun r => ⟨r.out, r.indent, r.stack.tail, r.fs⟩)) ∧
    (∀ f, find path stack = some (some (Data.Fun f)) →
      renderSection env (fuel + 1) indent stack fs path children src otag ctag =
        render env fuel indent stack
          (render_fun env src otag ctag f fs).2
          (render_fun env src otag ctag f fs).1) ∧
    (∀ s, find path stack = some (some (Data.Str s)) →
      renderSection env (fuel + 1) indent stack fs path children src otag ctag =
        none) := by
  refine ⟨?_, ?_, ?_, ?_, ?_, ?_, ?_, ?_, ?_, ?_⟩
  · intro h; rw [renderSection, h]
  · intro h; rw [renderSection, h]
  · intro h; rw [renderSection, h]
  · intro vs h; rw [renderSection, h]
  · rfl
  · intro v vs
    have hunf : renderSectionVec env (fuel + 1) indent stack fs (v :: vs) children =
        match render env fuel indent (v :: stack) fs children with
        | none => none
        | some r =>
          match renderSectionVec env fuel r.indent r.stack.tail r.fs vs children with
          | none => none
          | some r2 => some ⟨r.out ++ r2.out, r2.indent, r2.stack, r2.fs⟩ := rfl
    rw [hunf]
    cases hr : render env fuel indent (v :: stack) fs children with
    | none => simp
    | some r =>
      cases hr2 : renderSectionVec env fuel r.indent r.stack.tail r.fs vs children <;>
        simp [hr2]
  · intro v r h
    have := ((renderPreserves env fuel).1 indent (v :: stack) fs children r h).1
    rw [this]
    rfl
  · intro m h
    rw [renderSection, h]
    cases hr : render env fuel indent (Data.Map m :: stack) fs children <;> simp [hr]
  · intro f h; rw [renderSection, h]
  · intro s h; rw [renderSection, h]

/-- Witness for C2: a Bool true section and a two element Vec section at
concrete inputs. -/
theorem claim_C2_witness :
    renderSection wEnv 2 "" [Data.Map [("a", Data.Bool true)]] () ["a"]
        [Token.Text "X"] "s" "o" "c" =
      render wEnv 1 "" [Data.Map [("a", Data.Bool true)]] () [Token.Text "X"] ∧
    renderSection wEnv 2 "" [Data.Map [("a", Data.Vec [Data.Str "e"])]] () ["a"]
        [Token.Text "X"] "s" "o" "c" =
      renderSectionVec wEnv 1 "" [Data.Map [("a", Data.Vec [Data.Str "e"])]] ()
        [Data.Str "e"] [Token.Text "X"] :=
  ⟨(claim_C2 wEnv 1 "" [Data.Map [("a", Data.Bool true)]] () ["a"]
      [Token.Text "X"] "s" "o" "c").2.2.1 rfl,
   (claim_C2 wEnv 1 "" [Data.Map [("a", Data.Vec [Data.Str "e"])]] () ["a"]
      [Token.Text "X"] "s" "o" "c").2.2.2.1 [Data.Str "e"] rfl⟩

/-! ### Unescaped variable rendering -/

/-- Claim C3 as amended: an unescaped tag writes nothing when the path is
not found; writes the indent then the string literally for a Str; for a
Fun invokes the callback on the empty string, compiles its output under
the default double brace delimiters and renders the tokens inline at the
current stack depth, after writing the indent; and for any other variant
(Bool, Vec, Map) it is a fatal error rather than writing nothing. -/
theorem claim_C3 {σ : Type} (env : REnv σ) (fuel : Nat) (indent : String)
    (stack : List (Data σ)) (fs : σ) (path : List String) :
    (find path stack = some none →
      renderUtag env (fuel + 1) indent stack fs path = some ⟨"", indent, stack, fs⟩) ∧
    (∀ s, find path stack = some (some (Data.Str s)) →
      renderUtag env (fuel + 1) indent stack fs path =
        some ⟨indent ++ s, indent, stack, fs⟩) ∧
    (∀ f, find path stack = some (some (Data.Fun f)) →
      renderUtag env (fuel + 1) indent stack fs path =
        (render env fuel indent stack
          (render_fun env "" "\x7b\x7b" "\x7d\x7d" f fs).2
          (render_fun env "" "\x7b\x7b" "\x7d\x7d" f fs).1).map
          (fun r => ⟨indent ++ r.out, r.indent, r.stack, r.fs⟩)) ∧
    (∀ b, find path stack = some (some (Data.Bool b)) →
      renderUtag env (fuel + 1) indent stack fs path = none) ∧
    (∀ vs, find path stack = some (some (Data.Vec vs)) →
      renderUtag env (fuel + 1) indent stack fs path = none) ∧
    (∀ m, find path stack = some (some (Data.Map m)) →
      renderUtag env (fuel + 1) indent stack fs path = none) := by
  refine ⟨?_, ?_, ?_, ?_, ?_, ?_⟩
  · intro h; rw [renderUtag, h]
  · intro s h; rw [renderUtag, h]
  · intro f h
    rw [renderUtag, h]
    cases hr : render env fuel indent stack
        (render_fun env "" "\x7b\x7b" "\x7d\x7d" f fs).2
        (render_fun env "" "\x7b\x7b" "\x7d\x7d" f fs).1 <;> simp [hr]
  · intro b h; rw [renderUtag, h]
  · intro vs h; rw [renderUtag, h]
  · intro m h; rw [renderUtag, h]

/-- Counterexample for C3 as frozen: a path resolving to Bool true makes
the unescaped tag panic, it does not silently write nothing. -/
theorem claim_C3_counterexample :
    renderUtag wEnv 2 "" [Data.Map [("x", Data.Bool true)]] () ["x"] = none ∧
    renderUtag wEnv 2 "" [Data.Map [("x", Data.Bool true)]] () ["x"] ≠
      some ⟨"", "", [Data.Map [("x", Data.Bool true)]], ()⟩ :=
  have h : renderUtag wEnv 2 "" [Data.Map [("x", Data.Bool true)]] () ["x"] = none := rfl
  ⟨h, fun hc => Option.noConfusion (h.symm.trans hc)⟩

/-- Witness for C3: the Str and not found cases at concrete inputs. -/
theorem claim_C3_witness :
    renderUtag wEnv 2 "ab" [Data.Map [("x", Data.Str "v")]] () ["x"] =
      some ⟨"ab" ++ "v", "ab", [Data.Map [("x", Data.Str "v")]], ()⟩ ∧
    renderUtag wEnv 2 "ab" [Data.Map [("x", Data.Str "v")]] () ["y"] =
      some ⟨"", "ab", [Data.Map [("x", Data.Str "v")]], ()⟩ :=
  ⟨(claim_C3 wEnv 1 "ab" [Data.Map [("x", Data.Str "v")]] () ["x"]).2.1 "v" rfl,
   (claim_C3 wEnv 1 "ab" [Data.Map [("x", Data.Str "v")]] () ["y"]).1 rfl⟩

/-! ### Inverted sections and the complement property -/

/-- Claim C6 as amended: the inverted section renders its children
exactly when the path is not found, resolves to Bool false, or resolves
to an empty Vec, and any other resolved value suppresses them. On the
domain where the section renders children directly, that is Bool, Vec,
Map and not found, exactly one of the plain and the inverted section
renders the children: the truthiness tests are complementary. A Fun
makes the plain section defer to the callback output (the children are
not rendered as such) while the inverted section suppresses, so there
neither construct need render the children; a Str makes the plain
section fatal. -/
theorem claim_C6 {σ : Type} (env : REnv σ) (fuel : Nat) (indent : String)
    (stack : List (Data σ)) (fs : σ) (path : List String) (children : List Token) :
    (invFalsy (find path stack) = true →
      renderInvertedSection env (fuel + 1) indent stack fs path children =
        render env fuel indent stack fs children) ∧
    (invFalsy (find path stack) = false → find path stack ≠ none →
      renderInvertedSection env (fuel + 1) indent stack fs path children =
        some ⟨"", indent, stack, fs⟩) ∧
    (∀ (d : Data σ) (o : Bool), sectionRenders d = some o →
      invFalsy (some (some d)) = !o) ∧
    (invFalsy (some (none : Option (Data σ))) = true) ∧
    (∀ src otag ctag,
      (find path stack = some none ∨ find path stack = some (some (Data.Bool false)) →
        renderSection env (fuel + 1) indent stack fs path children src otag ctag =
          some ⟨"", indent, stack, fs⟩) ∧
      (find path stack = some (some (Data.Vec [])) →
        renderSection env (fuel + 2) indent stack fs path children src otag ctag =
          some ⟨"", indent, stack, fs⟩) ∧
      (find path stack = some (some (Data.Bool true)) →
        renderSection env (fuel + 1) indent stack fs path children src otag ctag =
          render env fuel indent stack fs children) ∧
      (∀ m, find path stack = some (some (Data.Map m)) →
        renderSection env (fuel + 1) indent stack fs path children src otag ctag =
          (render env fuel indent (Data.Map m :: stack) fs children).map
            (fun r => ⟨r.out, r.indent, r.stack.tail, r.fs⟩)) ∧
      (∀ v vs, find path stack = some (some (Data.Vec (v :: vs))) →
        renderSection env (fuel + 2) indent stack fs path children src otag ctag =
          (render env fuel indent (v :: stack) fs children).bind (fun r =>
            (renderSectionVec env fuel r.indent r.stack.tail r.fs vs children).map
              (fun r2 => ⟨r.out ++ r2.out, r2.indent, r2.stack, r2.fs⟩)))) := by
  refine ⟨?_, ?_, ?_, rfl, ?_⟩
  · intro h
    cases hf : find path stack with
    | none => rw [hf] at h; simp [invFalsy] at h
    | some o =>
      cases o with
      | none => rw [renderInvertedSection, hf]
      | some v =>
        rw [hf] at h
        cases v with
        | Bool b =>
          cases b with
          | false => rw [renderInvertedSection, hf]
          | true => simp [invFalsy] at h
        | Vec vs =>
          cases vs with
          | nil => rw [renderInvertedSection, hf]
          | cons x xs => simp [invFalsy] at h
        | Str s => simp [invFalsy] at h
        | Map m => simp [invFalsy] at h
        | Fun f => simp [invFalsy] at h
  · intro h hne
    cases hf : find path stack with
    | none => exact absurd hf hne
    | some o =>
      cases o with
      | none => rw [hf] at h; simp [invFalsy] at h
      | some v =>
        rw [hf] at h
        cases v with
        | Bool b =>
          cases b with
          | false => simp [invFalsy] at h
          | true => rw [renderInvertedSection, hf]
        | Vec vs =>
          cases vs with
          | nil => simp [invFalsy] at h
          | cons x xs => rw [renderInvertedSection, hf]
        | Str s => rw [renderInvertedSection, hf]
        | Map m => rw [renderInvertedSection, hf]
        | Fun f => rw [renderInvertedSection, hf]
  · intro d o h
    cases d with
    | Bool b =>
      simp only [sectionRenders, Option.some.injEq] at h
      subst h
      cases b <;> simp [invFalsy]
    | Vec vs =>
      simp only [sectionRenders, Option.some.injEq] at h
      subst h
      cases vs <;> simp [invFalsy]
    | Map m =>
      simp only [sectionRenders, Option.some.injEq] at h
      subst h
      simp [invFalsy]
    | Str s => simp [sectionRenders] at h
    | Fun f => simp [sectionRenders] at h
  · intro src otag ctag
    refine ⟨?_, ?_, ?_, ?_, ?_⟩
    · rintro (h | h) <;> rw [renderSection, h]
    · intro h
      rw [show (fuel + 2) = (fuel + 1) + 1 from rfl, renderSection, h]
      rfl
    · intro h; rw [renderSection, h]
    · intro m h
      rw [renderSection, h]
      cases hr : render env fuel indent (Data.Map m :: stack) fs children <;> simp [hr]
    · intro v vs h
      have h1 : renderSection env (fuel + 2) indent stack fs path children src otag ctag =
          renderSectionVec env (fuel + 1) indent stack fs (v :: vs) children := by
        rw [show (fuel + 2) = (fuel + 1) + 1 from rfl, renderSection, h]
      rw [h1]
      have hunf : renderSectionVec env (fuel + 1) indent stack fs (v :: vs) children =
          match render env fuel indent (v :: stack) fs children with
          | none => none
          | some r =>
            match renderSectionVec env fuel r.indent r.stack.tail r.fs vs children with
            | none => none
            | some r2 => some ⟨r.out ++ r2.out, r2.indent, r2.stack, r2.fs⟩ := rfl
      rw [hunf]
      cases hr : render env fuel indent (v :: stack) fs children with
      | none => simp
      | some r =>
        cases hr2 : renderSectionVec env fuel r.indent r.stack.tail r.fs vs children <;>
          simp [hr2]

/-- Counterexample for C6 as frozen: with the path bound to a callback
returning the empty string, the plain section writes the compiled
callback output (nothing here) and the inverted section writes nothing,
while rendering the children alone writes X: neither construct rendered
the children, refuting never neither. -/
theorem claim_C6_counterexample :
    renderSection wEnv 2 ""
        [Data.Map [("q", Data.Fun (fun _ u => ("", u)))]] () ["q"]
        [Token.Text "X"] "S" "o" "c" =
      some ⟨"", "", [Data.Map [("q", Data.Fun (fun _ u => ("", u)))]], ()⟩ ∧
    renderInvertedSection wEnv 2 ""
        [Data.Map [("q", Data.Fun (fun _ u => ("", u)))]] () ["q"]
        [Token.Text "X"] =
      some ⟨"", "", [Data.Map [("q", Data.Fun (fun _ u => ("", u)))]], ()⟩ ∧
    render wEnv 2 ""
        [Data.Map [("q", Data.Fun (fun _ u => ("", u)))]] () [Token.Text "X"] =
      some ⟨"X", "", [Data.Map [("q", Data.Fun (fun _ u => ("", u)))]], ()⟩ := by
  refine ⟨rfl, rfl, ?_⟩
  have : render_text "" "X" = "X" := rfl
  simp [render, renderToken, this]

/-- Witness for C6: the falsy and truthy inverted cases at concrete
inputs. -/
theorem claim_C6_witness :
    renderInvertedSection wEnv 2 "" [Data.Map [("a", Data.Bool false)]] () ["a"]
        [Token.Text "X"] =
      render wEnv 1 "" [Data.Map [("a", Data.Bool false)]] () [Token.Text "X"] ∧
    renderInvertedSection wEnv 2 "" [Data.Map [("a", Data.Str "v")]] () ["a"]
        [Token.Text "X"] =
      some ⟨"", "", [Data.Map [("a", Data.Str "v")]], ()⟩ :=
  ⟨(claim_C6 wEnv 1 "" [Data.Map [("a", Data.Bool false)]] () ["a"]
      [Token.Text "X"]).1 rfl,
   (claim_C6 wEnv 1 "" [Data.Map [("a", Data.Str "v")]] () ["a"]
      [Token.Text "X"]).2.1 rfl (fun hc => Option.noConfusion hc)⟩

/-! ### Determinism of rendering without callbacks -/

theorem noFunList_mem {σ : Type} {vs : List (Data σ)} (h : noFunList vs = true) :
    ∀ x ∈ vs, noFun x = true := by
  induction vs with
  | nil => simp
  | cons v rest ih =>
    rw [noFunList, Bool.and_eq_true] at h
    intro x hx
    rcases List.mem_cons.mp hx with rfl | hx
    · exact h.1
    · exact ih h.2 x hx

theorem assocGet_noFunMap {σ : Type} {m : List (String × Data σ)} {k : String}
    {v : Data σ} (h : noFunMap m = true) (hg : assocGet m k = some v) :
    noFun v = true := by
  induction m with
  | nil => simp [assocGet] at hg
  | cons kv rest ih =>
    obtain ⟨k1, v1⟩ := kv
    rw [noFunMap, Bool.and_eq_true] at h
    rw [assocGet] at hg
    by_cases he : k1 = k
    · rw [if_pos he] at hg
      cases hg
      exact h.1
    · rw [if_neg he] at hg
      exact ih h.2 hg

theorem walk_noFun {σ : Type} {v : Data σ} {parts : List String} {w : Data σ}
    (hv : noFun v = true) (h : walk v parts = some w) : noFun w = true := by
  induction parts generalizing v with
  | nil =>
    rw [walk] at h
    cases h
    exact hv
  | cons p rest ih =>
    cases v with
    | Map m =>
      rw [walk] at h
      cases hg : assocGet m p with
      | none => rw [hg] at h; cases h
      | some v2 =>
        rw [hg] at h
        have : noFun v2 = true := assocGet_noFunMap (by rw [noFun] at hv; exact hv) hg
        exact ih this h
    | Str s => simp [walk] at h
    | Bool b => simp [walk] at h
    | Vec vs => simp [walk] at h
    | Fun f => simp [walk] at h

theorem findFirst_noFun {σ : Type} {k : String} {stack : List (Data σ)} {v : Data σ}
    (hs : ∀ x ∈ stack, noFun x = true) (h : findFirst k stack = some (some v)) :
    noFun v = true := by
  induction stack with
  | nil => rw [findFirst] at h; cases h
  | cons d rest ih =>
    cases d with
    | Map m =>
      rw [findFirst] at h
      cases hg : assocGet m k with
      | none =>
        rw [hg] at h
        exact ih (fun x hx => hs x (List.mem_cons_of_mem _ hx)) h
      | some v2 =>
        rw [hg] at h
        cases h
        have hm : noFun (Data.Map m) = true := hs _ (List.mem_cons_self _ _)
        rw [noFun] at hm
        exact assocGet_noFunMap hm hg
    | Str s => simp [findFirst] at h
    | Bool b => simp [findFirst] at h
    | Vec vs => simp [findFirst] at h
    | Fun f => simp [findFirst] at h

theorem find_noFun {σ : Type} {path : List String} {stack : List (Data σ)} {v : Data σ}
    (hs : ∀ x ∈ stack, noFun x = true) (h : find path stack = some (some v)) :
    noFun v = true := by
  cases path with
  | nil =>
    rw [find] at h
    cases stack with
    | nil => simp at h
    | cons d rest =>
      simp only [List.head?_cons, Option.some.injEq] at h
      subst h
      exact hs _ (List.mem_cons_self _ _)
  | cons first rest =>
    rw [find] at h
    cases hff : findFirst first stack with
    | none => rw [hff] at h; cases h
    | some o =>
      cases o with
      | none => rw [hff] at h; cases h
      | some v1 =>
        rw [hff] at h
        simp only [Option.some.injEq] at h
        exact walk_noFun (findFirst_noFun hs hff) h

/-- When callbacks are absent from every stack frame, no rendering
operation can touch the callback state: a successful render returns it
unchanged. Proved for all the mutually recursive rendering functions by
induction on fuel. -/
theorem renderNoFun {σ : Type} (env : REnv σ) : ∀ fuel : Nat,
    (∀ indent stack fs toks r, (∀ x ∈ stack, noFun x = true) →
      render env fuel indent stack fs toks = some r → r.fs = fs) ∧
    (∀ indent stack fs tok r, (∀ x ∈ stack, noFun x = true) →
      renderToken env fuel indent stack fs tok = some r → r.fs = fs) ∧
    (∀ indent stack fs path r, (∀ x ∈ stack, noFun x = true) →
      renderEtag env fuel indent stack fs path = some r → r.fs = fs) ∧
    (∀ indent stack fs path r, (∀ x ∈ stack, noFun x = true) →
      renderUtag env fuel indent stack fs path = some r → r.fs = fs) ∧
    (∀ indent stack fs path children r, (∀ x ∈ stack, noFun x = true) →
      renderInvertedSection env fuel indent stack fs path children = some r → r.fs = fs) ∧
    (∀ indent stack fs path children src otag ctag r, (∀ x ∈ stack, noFun x = true) →
      renderSection env fuel indent stack fs path children src otag ctag = some r →
      r.fs = fs) ∧
    (∀ indent stack fs vs children r, (∀ x ∈ stack, noFun x = true) →
      (∀ x ∈ vs, noFun x = true) →
      renderSectionVec env fuel indent stack fs vs children = some r → r.fs = fs) ∧
    (∀ indent stack fs name pindent r, (∀ x ∈ stack, noFun x = true) →
      renderPartialTok env fuel indent stack fs name pindent = some r → r.fs = fs) := by
  intro fuel
  induction fuel with
  | zero =>
    refine ⟨?_, ?_, ?_, ?_, ?_, ?_, ?_, ?_⟩
    · intro indent stack fs toks r hnf h; simp [render] at h
    · intro indent stack fs tok r hnf h; simp [renderToken] at h
    · intro indent stack fs path r hnf h; simp [renderEtag] at h
    · intro indent stack fs path r hnf h; simp [renderUtag] at h
    · intro indent stack fs path children r hnf h; simp [renderInvertedSection] at h
    · intro indent stack fs path children src otag ctag r hnf h; simp [renderSection] at h
    · intro indent stack fs vs children r hnf hnv h; simp [renderSectionVec] at h
    · intro indent stack fs name pindent r hnf h; simp [renderPartialTok] at h
  | succ fuel ih =>
    obtain ⟨ihR, ihT, ihE, ihU, ihI, ihS, ihV, ihP⟩ := ih
    refine ⟨?_, ?_, ?_, ?_, ?_, ?_, ?_, ?_⟩
    · -- render
      intro indent stack fs toks r hnf h
      cases toks with
      | nil =>
        rw [render] at h
        cases h
        rfl
      | cons tok rest =>
        rw [render] at h
        split at h
        next => cases h
        next r1 heq1 =>
          split at h
          next => cases h
          next r2 heq2 =>
            cases h
            have hst1 : r1.stack = stack :=
              ((renderPreserves env fuel).2.1 _ _ _ _ _ heq1).1
            have hfs1 : r1.fs = fs := ihT _ _ _ _ _ hnf heq1
            have hfs2 : r2.fs = r1.fs :=
              ihR _ _ _ _ _ (by rw [hst1]; exact hnf) heq2
            show r2.fs = fs
            rw [hfs2, hfs1]
    · -- renderToken
      intro indent stack fs tok r hnf h
      cases tok with
      | Text value =>
        rw [renderToken] at h
        cases h
        rfl
      | ETag path tag => exact ihE _ _ _ _ _ hnf h
      | UTag path tag => exact ihU _ _ _ _ _ hnf h
      | Section path inverted children otag osec src csec ctag =>
        cases inverted with
        | true => exact ihI _ _ _ _ _ _ hnf h
        | false => exact ihS _ _ _ _ _ _ _ _ _ hnf h
      | PartialTok name pindent tag => exact ihP _ _ _ _ _ _ hnf h
      | IncompleteSection => rw [renderToken] at h; cases h
    · -- renderEtag
      intro indent stack fs path r hnf h
      rw [renderEtag] at h
      split at h
      next => cases h
      next r1 heq1 =>
        cases h
        show r1.fs = fs
        exact ihU _ _ _ _ _ hnf heq1
    · -- renderUtag
      intro indent stack fs path r hnf h
      rw [renderUtag] at h
      split at h
      next => cases h
      next => cases h; rfl
      next v heqf =>
        split at h
        next value => cases h; rfl
        next f =>
          have := find_noFun hnf heqf
          rw [noFun] at this
          cases this
        next hne1 hne2 => cases h
    · -- renderInvertedSection
      intro indent stack fs path children r hnf h
      rw [renderInvertedSection] at h
      split at h
      next => cases h
      next => exact ihR _ _ _ _ _ hnf h
      next => exact ihR _ _ _ _ _ hnf h
      next => exact ihR _ _ _ _ _ hnf h
      next => cases h; rfl
    · -- renderSection
      intro indent stack fs path children src otag ctag r hnf h
      rw [renderSection] at h
      split at h
      next => cases h
      next => cases h; rfl
      next v heqf =>
        split at h
        next => exact ihR _ _ _ _ _ hnf h
        next => cases h; rfl
        next vs =>
          have hv := find_noFun hnf heqf
          rw [noFun] at hv
          exact ihV _ _ _ _ _ _ hnf (noFunList_mem hv) h
        next m =>
          split at h
          next => cases h
          next r1 heq1 =>
            cases h
            have hm := find_noFun hnf heqf
            show r1.fs = fs
            refine ihR _ _ _ _ _ ?_ heq1
            intro x hx
            rcases List.mem_cons.mp hx with rfl | hx
            · exact hm
            · exact hnf x hx
        next f =>
          have := find_noFun hnf heqf
          rw [noFun] at this
          cases this
        next s => cases h
    · -- renderSectionVec
      intro indent stack fs vs children r
      cases vs with
      | nil =>
        intro hnf hnv h
        have hunf : renderSectionVec env (fuel + 1) indent stack fs [] children =
            some ⟨"", indent, stack, fs⟩ := rfl
        rw [hunf] at h
        cases h
        rfl
      | cons v rest =>
        intro hnf hnv h
        have hunf : renderSectionVec env (fuel + 1) indent stack fs (v :: rest) children =
            match render env fuel indent (v :: stack) fs children with
            | none => none
            | some r =>
              match renderSectionVec env fuel r.indent r.stack.tail r.fs rest children with
              | none => none
              | some r2 => some ⟨r.out ++ r2.out, r2.indent, r2.stack, r2.fs⟩ := rfl
        rw [hunf] at h
        split at h
        next => cases h
        next r1 heq1 =>
          split at h
          next => cases h
          next r2 heq2 =>
            cases h
            have hcons : ∀ x ∈ v :: stack, noFun x = true := by
              intro x hx
              rcases List.mem_cons.mp hx with rfl | hx
              · exact hnv _ (List.mem_cons_self _ _)
              · exact hnf x hx
            have hst1 : r1.stack = v :: stack :=
              ((renderPreserves env fuel).1 _ _ _ _ _ heq1).1
            have hfs1 : r1.fs = fs := ihR _ _ _ _ _ hcons heq1
            have hfs2 : r2.fs = r1.fs := by
              refine ihV _ _ _ _ _ _ ?_ ?_ heq2
              · intro x hx
                rw [hst1] at hx
                exact hnf x hx
              · intro x hx
                exact hnv x (List.mem_cons_of_mem _ hx)
            show r2.fs = fs
            rw [hfs2, hfs1]
    · -- renderPartialTok
      intro indent stack fs name pindent r hnf h
      rw [renderPartialTok] at h
      split at h
      next => cases h; rfl
      next toks heqp =>
        split at h
        next => cases h
        next r1 heq1 =>
          cases h
          show r1.fs = fs
          exact ihR _ _ _ _ _ hnf heq1

/-- Claim C9: determinism and idempotence of render_data on callback
free data. The renderer reads the template and the data without
mutating them and re initialises its own state per call; on data with no
Fun value the callback state is returned unchanged, so a second call of
render_data on the same template and data, even seeded with the state
the first call returned, produces the identical result byte for byte. -/
theorem claim_C9 {σ : Type} (env : REnv σ) (fuel : Nat) (d : Data σ) (fs0 : σ)
    (r : ROut σ) (hnf : noFun d = true)
    (h : render_data env fuel d fs0 = some r) :
    render_data env fuel d r.fs = some r := by
  have hstack : ∀ x ∈ [d], noFun x = true := by
    intro x hx
    rcases List.mem_cons.mp hx with rfl | hx
    · exact hnf
    · simp at hx
  have hfs : r.fs = fs0 := (renderNoFun env fuel).1 "" [d] fs0 env.template.tokens r hstack h
  rw [render_data, hfs]
  exact h

/-- Witness for C9 at a concrete callback free render. -/
theorem claim_C9_witness :
    render_data wEnv 2 (Data.Str "s") () = some ⟨"hi", "", [Data.Str "s"], ()⟩ ∧
    render_data wEnv 2 (Data.Str "s")
        (⟨"hi", "", [Data.Str "s"], ()⟩ : ROut Unit).fs =
      some ⟨"hi", "", [Data.Str "s"], ()⟩ :=
  ⟨rfl, claim_C9 wEnv 2 (Data.Str "s") () ⟨"hi", "", [Data.Str "s"], ()⟩
    (by simp [noFun]) rfl⟩

/-! ### Equality on data -/

theorem assocGet_isSome_of_mem {σ : Type} {m : List (String × Data σ)} {k : String}
    {v : Data σ} (h : (k, v) ∈ m) : ∃ w, assocGet m k = some w := by
  induction m with
  | nil => simp at h
  | cons kv rest ih =>
    obtain ⟨k0, v0⟩ := kv
    by_cases he : k0 = k
    · exact ⟨v0, by rw [assocGet, if_pos he]⟩
    · rcases List.mem_cons.mp h with h1 | h1
      · cases h1
        exact absurd rfl he
      · obtain ⟨w, hw⟩ := ih h1
        exact ⟨w, by rw [assocGet, if_neg he, hw]⟩

theorem keysUnique_assocGet {σ : Type} {m : List (String × Data σ)} {k : String}
    {v : Data σ} (hu : keysUnique m = true) (h : (k, v) ∈ m) :
    assocGet m k = some v := by
  induction m with
  | nil => simp at h
  | cons kv rest ih =>
    obtain ⟨k0, v0⟩ := kv
    rw [keysUnique, Bool.and_eq_true] at hu
    rcases List.mem_cons.mp h with h1 | h1
    · cases h1
      rw [assocGet, if_pos rfl]
    · by_cases he : k0 = k
      · subst he
        obtain ⟨w, hw⟩ := assocGet_isSome_of_mem h1
        rw [hw] at hu
        simp [Option.isNone] at hu
      · rw [assocGet, if_neg he]
        exact ih hu.2 h1

theorem noFunMap_mem {σ : Type} {m : List (String × Data σ)} (h : noFunMap m = true)
    (k : String) (v : Data σ) (hm : (k, v) ∈ m) : noFun v = true := by
  induction m with
  | nil => simp at hm
  | cons kv rest ih =>
    rw [noFunMap, Bool.and_eq_true] at h
    rcases List.mem_cons.mp hm with h1 | h1
    · cases h1
      exact h.1
    · exact ih h.2 h1

theorem wfKeysList_mem {σ : Type} {xs : List (Data σ)} (h : wfKeysList xs = true) :
    ∀ x ∈ xs, wfKeys x = true := by
  induction xs with
  | nil => simp
  | cons x rest ih =>
    rw [wfKeysList, Bool.and_eq_true] at h
    intro y hy
    rcases List.mem_cons.mp hy with rfl | hy
    · exact h.1
    · exact ih h.2 y hy

theorem wfKeysMap_mem {σ : Type} {m : List (String × Data σ)} (h : wfKeysMap m = true)
    (k : String) (v : Data σ) (hm : (k, v) ∈ m) : wfKeys v = true := by
  induction m with
  | nil => simp at hm
  | cons kv rest ih =>
    rw [wfKeysMap, Bool.and_eq_true] at h
    rcases List.mem_cons.mp hm with h1 | h1
    · cases h1
      exact h.1
    · exact ih h.2 h1

/-- Structural reflexivity of the source equality on callback free data
whose maps bind no key twice. -/
theorem dataEq_refl {σ : Type} (d : Data σ) (h1 : noFun d = true)
    (h2 : wfKeys d = true) : dataEq d d = some true := by
  match d with
  | .Str a => simp [dataEq]
  | .Bool a => simp [dataEq]
  | .Fun f => rw [noFun] at h1; cases h1
  | .Vec xs =>
    rw [noFun] at h1
    rw [wfKeys] at h2
    have hlist : ∀ ys : List (Data σ), (∀ y ∈ ys, y ∈ xs) →
        dataEqList ys ys = some true := by
      intro ys hys
      induction ys with
      | nil => rw [dataEqList]
      | cons y rest ih =>
        rw [dataEqList]
        have hy : y ∈ xs := hys y (List.mem_cons_self _ _)
        have hr : dataEq y y = some true :=
          dataEq_refl y (noFunList_mem h1 y hy) (wfKeysList_mem h2 y hy)
        rw [hr]
        exact ih (fun z hz => hys z (List.mem_cons_of_mem _ hz))
    simp [dataEq, hlist xs (fun y hy => hy)]
  | .Map m =>
    rw [noFun] at h1
    rw [wfKeys, Bool.and_eq_true] at h2
    have hmap : ∀ rest : List (String × Data σ), (∀ kv ∈ rest, kv ∈ m) →
        dataEqMap rest m = some true := by
      intro rest hrest
      induction rest with
      | nil => rw [dataEqMap]
      | cons kv rest2 ih =>
        obtain ⟨k, v⟩ := kv
        rw [dataEqMap]
        have hkv : (k, v) ∈ m := hrest _ (List.mem_cons_self _ _)
        have hget : assocGet m k = some v := keysUnique_assocGet h2.1 hkv
        have hr : dataEq v v = some true :=
          dataEq_refl v (noFunMap_mem h1 _ _ hkv) (wfKeysMap_mem h2.2 _ _ hkv)
        simp only [hget, hr]
        exact ih (fun z hz => hrest z (List.mem_cons_of_mem _ hz))
    simp [dataEq, hmap m (fun kv h => h)]
termination_by sizeOf d
decreasing_by
  · have hs := List.sizeOf_lt_of_mem hy
    simp only [Data.Vec.sizeOf_spec]
    omega
  · have hs := List.sizeOf_lt_of_mem hkv
    simp only [Data.Map.sizeOf_spec, Prod.mk.sizeOf_spec] at hs ⊢
    omega

/-- Claim C4 as amended: equality on Data is structural for the Str,
Bool, Vec and Map variants and values of two distinct variants are
unequal, a Fun against a non Fun included, for which the catch all arm
returns false silently; only comparing a Fun to another Fun fails loudly
(a panic, the none verdict). Structurality is witnessed by the literal
string and boolean clauses and by reflexivity on callback free well
keyed data. -/
theorem claim_C4 {σ : Type} :
    (∀ a b : String, dataEq (Data.Str a : Data σ) (Data.Str b) = some (a == b)) ∧
    (∀ a b : Bool, dataEq (Data.Bool a : Data σ) (Data.Bool b) = some (a == b)) ∧
    (∀ d : Data σ, noFun d = true → wfKeys d = true → dataEq d d = some true) ∧
    (∀ a b : Data σ, Data.tag a ≠ Data.tag b → dataEq a b = some false) ∧
    (∀ f g : String → σ → String × σ,
      dataEq (Data.Fun f) (Data.Fun g) = none) := by
  refine ⟨fun a b => by simp [dataEq], fun a b => by simp [dataEq],
    fun d => dataEq_refl d, ?_, fun f g => by simp [dataEq]⟩
  intro a b hne
  cases a <;> cases b <;> simp_all [dataEq, Data.tag]

/-- Counterexample for C4 as frozen: comparing a Fun to a Str returns
false through the catch all arm instead of failing loudly. -/
theorem claim_C4_counterexample :
    dataEq (Data.Fun (fun s u => (s, u)) : Data Unit) (Data.Str "") = some false ∧
    dataEq (Data.Fun (fun s u => (s, u)) : Data Unit) (Data.Str "") ≠ none :=
  have h : dataEq (Data.Fun (fun s u => (s, u)) : Data Unit) (Data.Str "") =
      some false := rfl
  ⟨h, fun hc => Option.noConfusion (h.symm.trans hc)⟩

/-- Witness for C4: reflexivity applied to a concrete nested value and
the tag clause applied to two concrete variants. -/
theorem claim_C4_witness :
    dataEq (Data.Map [("a", Data.Vec [Data.Str "x", Data.Bool true])] : Data Unit)
        (Data.Map [("a", Data.Vec [Data.Str "x", Data.Bool true])]) = some true ∧
    dataEq (Data.Str "x" : Data Unit) (Data.Bool true) = some false :=
  ⟨(claim_C4 (σ := Unit)).2.2.1
      (Data.Map [("a", Data.Vec [Data.Str "x", Data.Bool true])]) rfl rfl,
   (claim_C4 (σ := Unit)).2.2.2.1 (Data.Str "x") (Data.Bool true) (by decide)⟩

/-! ### The public error type -/

/-- Counterexample for C5 as frozen: the kinds of the embedded error
type are exactly the five below, and UnbalancedSection is not among
them. -/
theorem claim_C5_counterexample :
    allErrorKindNames =
      ["UnsupportedType", "InvalidStr", "MissingElements", "KeyIsNotString", "IoError"] ∧
    "UnbalancedSection" ∉ allErrorKindNames := by
  refine ⟨rfl, ?_⟩
  decide

/-- Claim C5 as amended: the public error type has exactly the kinds
UnsupportedType (unsupported type), InvalidStr (invalid text),
MissingElements, KeyIsNotString and IoError (input output failure);
there is no UnbalancedSection kind, parse time structural errors being
fatal in the source rather than represented as Error values. -/
theorem claim_C5 :
    (∀ e : Error, e.kind ∈ allErrorKinds) ∧
    allErrorKinds.map ErrorKind.name =
      ["UnsupportedType", "InvalidStr", "MissingElements", "KeyIsNotString", "IoError"] ∧
    allErrorKinds.Nodup := by
  refine ⟨?_, rfl, by decide⟩
  intro e
  cases e <;> simp [Error.kind, allErrorKinds]

end Mustache
